import Mathlib

/-
Verification of the Siamese-RPN training-loss pipeline
(module/loss_module.py and net/network.py), shallowly embedded over ℚ.
Float tensors are modelled as lists of rationals; elementwise TensorFlow
operations become zips over lists; reductions become list sums.
-/

namespace SiamRPN

/-- Four-way elementwise zip, modelling elementwise TensorFlow ops over
four tensors of matching shape. -/
def zipWith4 {α β γ δ ε : Type} (f : α → β → γ → δ → ε) :
    List α → List β → List γ → List δ → List ε
  | a :: as, b :: bs, c :: cs, d :: ds => f a b c d :: zipWith4 f as bs cs ds
  | _, _, _, _ => []

/-- One scalar element of the regression-loss tensor, from `Loss_op.loss`:
`inside = target_inside_weight * (pre_box - target_box)`;
`mask = cast(|inside| < 1)`; `option1 = inside*inside*0.5`;
`option2 = |inside| - 0.5`;
`smooth_l1 = (option1*mask + option2*(1-mask)) * target_outside_weight`. -/
def smooth_l1_elem (iw pre tb ow : ℚ) : ℚ :=
  let inside := iw * (pre - tb)
  let mask : ℚ := if |inside| < 1 then 1 else 0
  let option1 := inside * inside * (1/2)
  let option2 := |inside| - 1/2
  (option1 * mask + option2 * (1 - mask)) * ow

/-- The regression-loss mass contributed by one anchor: the sum of
`smooth_l1_elem` over its four target dimensions. -/
def smooth_l1_anchor (iw pre tb ow : List ℚ) : ℚ :=
  (zipWith4 smooth_l1_elem iw pre tb ow).sum

/-- `reg_loss = tf.reduce_sum(smooth_l1) * 10` from `Loss_op.loss`:
tensors are (anchors × 4) rows; the batch dimension is flattened into the
anchor dimension, which is faithful because every operation involved is
elementwise and the reduction sums over all axes. -/
def reg_loss (iw pre tb ow : List (List ℚ)) : ℚ :=
  (zipWith4 smooth_l1_anchor iw pre tb ow).sum * 10

/-- The smoothed-L1 (Huber-style) transform as the specification words it:
`0.5*d^2` when `|d| < 1`, `|d| - 0.5` otherwise. -/
def huber (d : ℚ) : ℚ :=
  if |d| < 1 then (1/2) * d^2 else |d| - 1/2

/-- Uniform rescaling of an (anchors × 4) outside-weight tensor by `c`. -/
def scaleOW (c : ℚ) (ow : List (List ℚ)) : List (List ℚ) :=
  ow.map (fun row => row.map (fun x => c * x))

/-- `tf.where(tf.not_equal(label, -1))` on the flattened label tensor:
the ascending list of positions whose label is not the ignore value -1. -/
def keptIndices : List ℤ → List ℕ
  | [] => []
  | l :: ls =>
      if l ≠ -1 then 0 :: (keptIndices ls).map (· + 1)
      else (keptIndices ls).map (· + 1)

/-- `tf.gather_nd`: read a tensor at a list of positions. -/
def gatherD {α : Type} (xs : List α) (d : α) (idx : List ℕ) : List α :=
  idx.map (fun i => xs.getD i d)

/-- The classification-loss pipeline of `Loss_op.loss`, parameterized by the
external primitive `ce` standing for
`tf.nn.sparse_softmax_cross_entropy_with_logits` on one (2-logit, label)
pair: gather scores and labels at the non-ignored positions, average the
per-position cross-entropies (`tf.reduce_mean`). -/
def cls_loss (ce : ℚ × ℚ → ℤ → ℚ) (label : List ℤ) (pre_score : List (ℚ × ℚ)) : ℚ :=
  let keep := keptIndices label
  let pre_score_valid := gatherD pre_score (0, 0) keep
  let label_valid := gatherD label 0 keep
  (List.zipWith ce pre_score_valid label_valid).sum / (label_valid.length : ℚ)

/-- The (score, label) pairs at anchors not labeled ignore, as the
specification words the gather: "only positions where label ≠ ignore". -/
def validPairs (label : List ℤ) (pre_score : List (ℚ × ℚ)) : List ((ℚ × ℚ) × ℤ) :=
  (pre_score.zip label).filter (fun p => p.2 ≠ -1)

/-- The quadratic branch `option1 = inside*inside*0.5` of the smoothed-L1
transform, over ℝ to discuss slopes. -/
noncomputable def option1R (d : ℝ) : ℝ := d * d * (1/2)

/-- The linear branch `option2 = |inside| - 0.5` of the smoothed-L1
transform, over ℝ to discuss slopes. -/
noncomputable def option2R (d : ℝ) : ℝ := |d| - 1/2

/-- An axis-aligned box in corner coordinates. -/
structure Box where
  x1 : ℚ
  y1 : ℚ
  x2 : ℚ
  y2 : ℚ
deriving DecidableEq, Repr, Inhabited

/-- Area of a box. -/
def Box.area (b : Box) : ℚ := (b.x2 - b.x1) * (b.y2 - b.y1)

/-- Intersection area of two boxes; zero when they do not overlap. -/
def interArea (a b : Box) : ℚ :=
  max 0 (min a.x2 b.x2 - max a.x1 b.x1) * max 0 (min a.y2 b.y2 - max a.y1 b.y1)

/-- Modelled from the spec: `module/anchor_tf.py` is not under src/.
IoU = intersection-area / (area_a + area_b - intersection-area). -/
def iou (a b : Box) : ℚ :=
  interArea a b / (a.area + b.area - interArea a b)

/-- The maximum IoU between any anchor of the list and the ground truth. -/
def maxIoU (anchors : List Box) (gt : Box) : ℚ :=
  match anchors with
  | [] => 0
  | a :: as => (as.map (fun x => iou x gt)).foldl max (iou a gt)

/-- Modelled from the spec: `module/anchor_tf.py` (`Anchor_tf.pos_neg_anchor2`)
is not under src/. Labeling steps 1-4 of the matcher: foreground (1) when the
anchor's IoU exceeds the positive threshold OR equals the maximum IoU over all
anchors; background (0) when the IoU is below the negative threshold and the
anchor is not already foreground; ignore (-1) otherwise. -/
def assignLabels (posTh negTh : ℚ) (anchors : List Box) (gt : Box) : List ℤ :=
  let m := maxIoU anchors gt
  anchors.map (fun a =>
    let v := iou a gt
    if v > posTh ∨ v = m then (1 : ℤ)
    else if v < negTh then 0 else -1)

/-- The tuple returned by `Anchor_tf.pos_neg_anchor2`:
(label, target_box, target_inside_weight, target_outside_weight, all_box). -/
def MatchOut : Type :=
  List ℤ × List (List ℚ) × List (List ℚ) × List (List ℚ) × List (List ℚ)

/-- Modelled from the spec: `module/anchor_tf.py` is not under src/. The
matcher object; per the spec its full `pos_neg_anchor2` (labeling, capped
subsampling driven by a single seeded random draw, log-space target encoding,
weight assembly) is a fixed deterministic mapping from (ground truth, anchors)
to (labels, targets, weights, boxes), held abstract here as one field. -/
structure Anchor_tf where
  posNegAnchor2 : List Box → List Box → MatchOut

/-- Modelled from the spec: `module/gen_ancor.py` (`Anchor(rows, cols)`) is
not under src/. A pure, deterministic generator of `rows × cols ×
anchors_per_cell` anchor boxes tiled over the grid with stride 8 and five
aspect ratios. -/
def anchorBoxes (rows cols : ℕ) : List Box :=
  (List.range rows).flatMap (fun i =>
    (List.range cols).flatMap (fun j =>
      ([(1, 3), (1, 2), (1, 1), (2, 1), (3, 1)] : List (ℚ × ℚ)).map (fun r =>
        { x1 := 8 * j - 4 * r.1, y1 := 8 * i - 4 * r.2,
          x2 := 8 * j + 4 * r.1, y2 := 8 * i + 4 * r.2 })))

/-- The `Loss_op` object: `__init__` stores the anchor set and the matcher. -/
structure Loss_op where
  anchors : List Box
  anchor_tf : Anchor_tf

/-- `Loss_op.__init__`: `self.anchors = Anchor(49,49).anchors`;
`self.anchor_tf = Anchor_tf()` (the matcher object, abstract here). -/
def Loss_op.init (atf : Anchor_tf) : Loss_op :=
  { anchors := anchorBoxes 49 49, anchor_tf := atf }

/-- `Loss_op.loss(gt, pre_score, pre_box)`: run the matcher on the cached
anchors, compute the classification loss over non-ignored anchors and the
weighted smoothed-L1 regression loss, and return
(cls_loss, reg_loss, label, target_box). The method writes no attribute, so
the explicit state passing returns the object unchanged. -/
def Loss_op.loss (ce : ℚ × ℚ → ℤ → ℚ) (op : Loss_op) (gt : List Box)
    (pre_score : List (ℚ × ℚ)) (pre_box : List (List ℚ)) :
    (ℚ × ℚ × List ℤ × List (List ℚ)) × Loss_op :=
  let r := op.anchor_tf.posNegAnchor2 gt op.anchors
  let label := r.1
  let target_box := r.2.1
  let target_inside_weight := r.2.2.1
  let target_outside_weight := r.2.2.2.1
  ((cls_loss ce label pre_score,
    reg_loss target_inside_weight pre_box target_box target_outside_weight,
    label, target_box), op)

/-- A sequence of `loss` invocations threaded through the object state. -/
def runLosses (ce : ℚ × ℚ → ℤ → ℚ) (op : Loss_op)
    (calls : List (List Box × List (ℚ × ℚ) × List (List ℚ))) : Loss_op :=
  calls.foldl (fun s c => (Loss_op.loss ce s c.1 c.2.1 c.2.2).2) op

/-- The mutable state of a `Network` object touched by the layer-chaining
machinery of net/network.py: the layer lookup table (a Python dict, modelled
as an insertion-ordered association list) and the terminal list. The tensor
type is abstract. -/
structure NetState (T : Type) where
  layers : List (String × T)
  terminals : List T

/-- Python dict assignment `d[k] = v`: replace the value at an existing key
in place, else append the new binding. -/
def dictSet {T : Type} : List (String × T) → String → T → List (String × T)
  | [], k, v => [(k, v)]
  | p :: ps, k, v => if p.1 = k then (k, v) :: ps else p :: dictSet ps k v

/-- Python dict lookup `d[k]`. -/
def dictGet {T : Type} : List (String × T) → String → Option T
  | [], _ => none
  | p :: ps, k => if p.1 = k then some p.2 else dictGet ps k

/-- `Network.get_unique_name`: count the layer names starting with the given
type prefix, add one, and suffix it: `'%s_%d' % (prefix, ident)`. -/
def getUniqueName {T : Type} (st : NetState T) (pfx : String) : String :=
  pfx ++ "_" ++ toString ((st.layers.filter (fun p => pfx.isPrefixOf p.1)).length + 1)

/-- `Network.feed` on already-resolved tensors: replace the terminal list by
the arguments. -/
def feed {T : Type} (st : NetState T) (args : List T) : NetState T :=
  { st with terminals := args }

/-- The `layer_decorated` wrapper of the `@layer` decorator in net/network.py:
resolve the layer name (supplied or auto-generated); if the terminal list is
empty raise RuntimeError; else pass the single terminal (or the whole list)
to the wrapped op, record the output in the layer table, and feed it as the
sole terminal. The pair returns the RuntimeError outcome alongside the object
state, which an exception leaves untouched. -/
def layer_decorated {T : Type} (opName : String) (suppliedName : Option String)
    (op : T ⊕ List T → T) (st : NetState T) : Except String Unit × NetState T :=
  let name := suppliedName.getD (getUniqueName st opName)
  match st.terminals with
  | [] => (Except.error ("No input variables found for layer " ++ name ++ "."), st)
  | [t] =>
      let layer_output := op (Sum.inl t)
      (Except.ok (), feed { st with layers := dictSet st.layers name layer_output }
        [layer_output])
  | ts =>
      let layer_output := op (Sum.inr ts)
      (Except.ok (), feed { st with layers := dictSet st.layers name layer_output }
        [layer_output])

/- ===================== Theorems ===================== -/

theorem smooth_l1_elem_eq_huber (iw pre tb ow : ℚ) :
    smooth_l1_elem iw pre tb ow = ow * huber (iw * (pre - tb)) := by
  unfold smooth_l1_elem huber
  by_cases h : |iw * (pre - tb)| < 1 <;> simp only [h, if_true, if_false] <;> ring

theorem zipWith4_congr {α β γ δ ε : Type} (f g : α → β → γ → δ → ε)
    (h : ∀ a b c d, f a b c d = g a b c d) :
    ∀ (as : List α) (bs : List β) (cs : List γ) (ds : List δ),
      zipWith4 f as bs cs ds = zipWith4 g as bs cs ds := by
  intro as
  induction as with
  | nil => intro bs cs ds; cases bs <;> cases cs <;> cases ds <;> rfl
  | cons a as ih =>
      intro bs cs ds
      cases bs <;> cases cs <;> cases ds <;> simp [zipWith4, h, ih]

/-- C1: the regression loss returned by `Loss_op.loss` equals the sum, over
all anchors and their four dimensions, of the outside weight times the
smoothed-L1 transform of `inside_weight * (predicted_box - target_box)`,
the whole multiplied by the fixed scale factor 10. -/
theorem reg_loss_formula (iw pre tb ow : List (List ℚ)) :
    reg_loss iw pre tb ow =
      (zipWith4 (fun iwa pa ta oa =>
          (zipWith4 (fun i p t o => o * huber (i * (p - t))) iwa pa ta oa).sum)
        iw pre tb ow).sum * 10 := by
  unfold reg_loss smooth_l1_anchor
  rw [zipWith4_congr (fun iwa pa ta oa => (zipWith4 smooth_l1_elem iwa pa ta oa).sum)
        (fun iwa pa ta oa =>
          (zipWith4 (fun i p t o => o * huber (i * (p - t))) iwa pa ta oa).sum)]
  intro a b c d
  rw [zipWith4_congr smooth_l1_elem (fun i p t o => o * huber (i * (p - t)))
        smooth_l1_elem_eq_huber]

theorem zipWith4_map4 {α β γ δ δ₂ ε : Type} (f : α → β → γ → δ₂ → ε) (g : δ → δ₂) :
    ∀ (as : List α) (bs : List β) (cs : List γ) (ds : List δ),
      zipWith4 f as bs cs (ds.map g) = zipWith4 (fun a b c d => f a b c (g d)) as bs cs ds := by
  intro as
  induction as with
  | nil => intro bs cs ds; cases bs <;> cases cs <;> cases ds <;> rfl
  | cons a as ih =>
      intro bs cs ds
      cases bs <;> cases cs <;> cases ds <;> simp [zipWith4, ih]

theorem zipWith4_sum_smul {α β γ δ : Type} (k : ℚ) (f : α → β → γ → δ → ℚ) :
    ∀ (as : List α) (bs : List β) (cs : List γ) (ds : List δ),
      (zipWith4 (fun a b c d => k * f a b c d) as bs cs ds).sum
        = k * (zipWith4 f as bs cs ds).sum := by
  intro as
  induction as with
  | nil => intro bs cs ds; cases bs <;> cases cs <;> cases ds <;> simp [zipWith4]
  | cons a as ih =>
      intro bs cs ds
      cases bs <;> cases cs <;> cases ds <;> simp [zipWith4, ih, mul_add]

theorem zipWith4_append {α β γ δ ε : Type} (f : α → β → γ → δ → ε) :
    ∀ (as : List α) (bs : List β) (cs : List γ) (ds : List δ)
      (as2 : List α) (bs2 : List β) (cs2 : List γ) (ds2 : List δ),
      as.length = bs.length → as.length = cs.length → as.length = ds.length →
      zipWith4 f (as ++ as2) (bs ++ bs2) (cs ++ cs2) (ds ++ ds2)
        = zipWith4 f as bs cs ds ++ zipWith4 f as2 bs2 cs2 ds2 := by
  intro as
  induction as with
  | nil =>
      intro bs cs ds as2 bs2 cs2 ds2 h1 h2 h3
      have hb : bs = [] := List.length_eq_zero.mp (by simpa using h1.symm)
      have hc : cs = [] := List.length_eq_zero.mp (by simpa using h2.symm)
      have hd : ds = [] := List.length_eq_zero.mp (by simpa using h3.symm)
      subst hb; subst hc; subst hd
      simp [zipWith4]
  | cons a as ih =>
      intro bs cs ds as2 bs2 cs2 ds2 h1 h2 h3
      cases bs with
      | nil => simp at h1
      | cons b bs =>
        cases cs with
        | nil => simp at h2
        | cons c cs =>
          cases ds with
          | nil => simp at h3
          | cons d ds =>
            simp only [List.cons_append, zipWith4]
            exact congrArg (List.cons (f a b c d))
              (ih bs cs ds as2 bs2 cs2 ds2 (by simpa using h1) (by simpa using h2)
                (by simpa using h3))

theorem smooth_l1_anchor_scale (c : ℚ) (iw pre tb ow : List ℚ) :
    smooth_l1_anchor iw pre tb (ow.map (fun x => c * x))
      = c * smooth_l1_anchor iw pre tb ow := by
  unfold smooth_l1_anchor
  rw [zipWith4_map4,
      zipWith4_congr (fun i p t o => smooth_l1_elem i p t (c * o))
        (fun i p t o => c * smooth_l1_elem i p t o)
        (by
          intro i p t o
          show smooth_l1_elem i p t (c * o) = c * smooth_l1_elem i p t o
          rw [smooth_l1_elem_eq_huber, smooth_l1_elem_eq_huber]; ring),
      zipWith4_sum_smul]

theorem reg_sum_scaleOW (c : ℚ) (iw pre tb ow : List (List ℚ)) :
    (zipWith4 smooth_l1_anchor iw pre tb (scaleOW c ow)).sum
      = c * (zipWith4 smooth_l1_anchor iw pre tb ow).sum := by
  unfold scaleOW
  rw [zipWith4_map4,
      zipWith4_congr (fun a b cc d => smooth_l1_anchor a b cc (d.map (fun x => c * x)))
        (fun a b cc d => c * smooth_l1_anchor a b cc d)
        (by intro a b cc d; exact smooth_l1_anchor_scale c a b cc d),
      zipWith4_sum_smul]

/-- C4: an anchor whose predicted box exactly equals its regression target
contributes exactly 0 to the regression loss across its four dimensions,
whatever the inside and outside weights are. -/
theorem zero_residual_zero_reg (iw pre tb ow : List ℚ) (h : pre = tb) :
    smooth_l1_anchor iw pre tb ow = 0 := by
  subst h
  unfold smooth_l1_anchor
  induction iw generalizing pre ow with
  | nil => cases pre <;> cases ow <;> simp [zipWith4]
  | cons i is ih =>
      cases pre with
      | nil => cases ow <;> simp [zipWith4]
      | cons p ps =>
          cases ow with
          | nil => simp [zipWith4]
          | cons o os => simp [zipWith4, ih, smooth_l1_elem_eq_huber, huber]

/-- Witness for C4 at a concrete anchor. -/
theorem zero_residual_zero_reg_witness :
    smooth_l1_anchor [1, 1, 1, 1] [2, 3, 4, 5] [2, 3, 4, 5] [7, 7, 7, 7] = 0 :=
  zero_residual_zero_reg [1, 1, 1, 1] [2, 3, 4, 5] [2, 3, 4, 5] [7, 7, 7, 7] rfl

/-- C5: an anchor whose inside-weight 4-vector is all zeros contributes
exactly 0 to the regression loss, whatever the predicted box, target box and
outside weight are. -/
theorem zero_inside_weight_zero_reg (iw pre tb ow : List ℚ) (h : ∀ x ∈ iw, x = 0) :
    smooth_l1_anchor iw pre tb ow = 0 := by
  unfold smooth_l1_anchor
  induction iw generalizing pre tb ow with
  | nil => cases pre <;> cases tb <;> cases ow <;> simp [zipWith4]
  | cons i is ih =>
      cases pre with
      | nil => cases tb <;> cases ow <;> simp [zipWith4]
      | cons p ps =>
          cases tb with
          | nil => cases ow <;> simp [zipWith4]
          | cons t ts =>
              cases ow with
              | nil => simp [zipWith4]
              | cons o os =>
                  have hi : i = 0 := h i (by simp)
                  have hrest : ∀ x ∈ is, x = 0 := fun x hx => h x (by simp [hx])
                  simp [zipWith4, ih _ _ _ hrest, smooth_l1_elem_eq_huber, hi, huber]

/-- Witness for C5 at a concrete anchor. -/
theorem zero_inside_weight_zero_reg_witness :
    smooth_l1_anchor [0, 0, 0, 0] [9, 8, 7, 6] [1, 2, 3, 4] [5, 5, 5, 5] = 0 :=
  zero_inside_weight_zero_reg [0, 0, 0, 0] [9, 8, 7, 6] [1, 2, 3, 4] [5, 5, 5, 5]
    (by decide)

/-- C6: the regression loss is homogeneous of degree 1 in the outside weight
(uniformly rescaling every outside weight by `c` rescales the loss by `c`),
and duplicating every foreground contribution while halving the outside
weight leaves the regression loss unchanged. -/
theorem reg_loss_outside_weight_homogeneous (c : ℚ) (iw pre tb ow : List (List ℚ))
    (h1 : iw.length = pre.length) (h2 : iw.length = tb.length)
    (h3 : iw.length = ow.length) :
    reg_loss iw pre tb (scaleOW c ow) = c * reg_loss iw pre tb ow ∧
    reg_loss (iw ++ iw) (pre ++ pre) (tb ++ tb)
        (scaleOW (1/2) ow ++ scaleOW (1/2) ow)
      = reg_loss iw pre tb ow := by
  constructor
  · unfold reg_loss
    rw [reg_sum_scaleOW]
    ring
  · unfold reg_loss
    have hlen : iw.length = (scaleOW (1/2) ow).length := by
      simpa [scaleOW] using h3
    rw [zipWith4_append smooth_l1_anchor iw pre tb (scaleOW (1/2) ow)
          iw pre tb (scaleOW (1/2) ow) h1 h2 hlen,
        List.sum_append, reg_sum_scaleOW]
    ring

/-- Witness for C6 at concrete one-anchor tensors with scale factor 3. -/
theorem reg_loss_outside_weight_homogeneous_witness :
    reg_loss [[1, 1, 1, 1]] [[2, 0, 5, 1]] [[0, 0, 1, 1]]
        (scaleOW 3 [[1, 1, 1, 1]])
      = 3 * reg_loss [[1, 1, 1, 1]] [[2, 0, 5, 1]] [[0, 0, 1, 1]] [[1, 1, 1, 1]] ∧
    reg_loss ([[1, 1, 1, 1]] ++ [[1, 1, 1, 1]]) ([[2, 0, 5, 1]] ++ [[2, 0, 5, 1]])
        ([[0, 0, 1, 1]] ++ [[0, 0, 1, 1]])
        (scaleOW (1/2) [[1, 1, 1, 1]] ++ scaleOW (1/2) [[1, 1, 1, 1]])
      = reg_loss [[1, 1, 1, 1]] [[2, 0, 5, 1]] [[0, 0, 1, 1]] [[1, 1, 1, 1]] :=
  reg_loss_outside_weight_homogeneous 3 [[1, 1, 1, 1]] [[2, 0, 5, 1]]
    [[0, 0, 1, 1]] [[1, 1, 1, 1]] rfl rfl rfl

theorem gatherD_shift {α : Type} (x : α) (xs : List α) (d : α) (idx : List ℕ) :
    gatherD (x :: xs) d (idx.map (· + 1)) = gatherD xs d idx := by
  unfold gatherD
  rw [List.map_map]
  simp [Function.comp]

theorem gather_pipeline_eq_filter (ce : ℚ × ℚ → ℤ → ℚ) :
    ∀ (label : List ℤ) (pre_score : List (ℚ × ℚ)),
      pre_score.length = label.length →
      List.zipWith ce (gatherD pre_score (0, 0) (keptIndices label))
          (gatherD label 0 (keptIndices label))
        = (validPairs label pre_score).map (fun p => ce p.1 p.2)
      ∧ (gatherD label 0 (keptIndices label)).length
        = (validPairs label pre_score).length := by
  intro label
  induction label with
  | nil =>
      intro pre_score hlen
      have hs : pre_score = [] := List.length_eq_zero.mp (by simpa using hlen)
      subst hs
      simp [keptIndices, gatherD, validPairs]
  | cons l ls ih =>
      intro pre_score hlen
      cases pre_score with
      | nil => simp at hlen
      | cons s ss =>
          have hlen2 : ss.length = ls.length := by simpa using hlen
          obtain ⟨ih1, ih2⟩ := ih ss hlen2
          by_cases hl : l = -1
          · subst hl
            simp only [keptIndices, ne_eq, not_true_eq_false, if_false,
              gatherD_shift, validPairs, List.zip_cons_cons, List.filter_cons]
            simp only [validPairs] at ih1 ih2
            constructor
            · simpa using ih1
            · simpa using ih2
          · simp only [keptIndices, ne_eq, hl, not_false_eq_true, if_true]
            have hshift1 : gatherD (s :: ss) (0, 0) (0 :: (keptIndices ls).map (· + 1))
                = s :: gatherD ss (0, 0) (keptIndices ls) := by
              unfold gatherD
              simp only [List.map_cons, List.getD_cons_zero]
              rw [show ((keptIndices ls).map (· + 1)).map
                    (fun i => (s :: ss).getD i (0, 0))
                  = gatherD (s :: ss) (0, 0) ((keptIndices ls).map (· + 1)) from rfl,
                gatherD_shift]
              rfl
            have hshift2 : gatherD (l :: ls) 0 (0 :: (keptIndices ls).map (· + 1))
                = l :: gatherD ls 0 (keptIndices ls) := by
              unfold gatherD
              simp only [List.map_cons, List.getD_cons_zero]
              rw [show ((keptIndices ls).map (· + 1)).map
                    (fun i => (l :: ls).getD i 0)
                  = gatherD (l :: ls) 0 ((keptIndices ls).map (· + 1)) from rfl,
                gatherD_shift]
              rfl
            rw [hshift1, hshift2]
            simp only [validPairs, List.zip_cons_cons, List.filter_cons]
            simp only [validPairs] at ih1 ih2
            constructor
            · simp only [List.zipWith_cons_cons, ih1]
              simp [hl]
            · simp only [List.length_cons, ih2]
              simp [hl]

theorem validPairs_length_eq_filter (label : List ℤ) (pre_score : List (ℚ × ℚ))
    (hlen : pre_score.length = label.length) :
    (validPairs label pre_score).length = (label.filter (fun l => l ≠ -1)).length := by
  induction label generalizing pre_score with
  | nil => simp [validPairs]
  | cons l ls ih =>
      cases pre_score with
      | nil => simp at hlen
      | cons s ss =>
          have hlen2 : ss.length = ls.length := by simpa using hlen
          have hrec := ih ss hlen2
          simp only [validPairs] at hrec ⊢
          by_cases hl : l = -1
          · simp [List.filter_cons, hl] at hrec ⊢
            exact hrec
          · simp [List.filter_cons, hl] at hrec ⊢
            exact hrec

/-- C2: when at least one anchor has a label other than -1, the
classification loss of `Loss_op.loss` is the mean of the per-anchor
cross-entropies over exactly the non-ignored anchors: ignored anchors appear
in neither the numerator nor the denominator, whose value is the count of
non-ignored anchors. -/
theorem cls_loss_mean_over_valid (ce : ℚ × ℚ → ℤ → ℚ) (label : List ℤ)
    (pre_score : List (ℚ × ℚ)) (hlen : pre_score.length = label.length)
    (_hvalid : ∃ l ∈ label, l ≠ -1) :
    cls_loss ce label pre_score
      = ((validPairs label pre_score).map (fun p => ce p.1 p.2)).sum
          / ((validPairs label pre_score).length : ℚ)
    ∧ (validPairs label pre_score).length
      = (label.filter (fun l => l ≠ -1)).length := by
  obtain ⟨hz, hn⟩ := gather_pipeline_eq_filter ce label pre_score hlen
  refine ⟨?_, validPairs_length_eq_filter label pre_score hlen⟩
  rw [show cls_loss ce label pre_score
        = (List.zipWith ce (gatherD pre_score (0, 0) (keptIndices label))
            (gatherD label 0 (keptIndices label))).sum
          / ((gatherD label 0 (keptIndices label)).length : ℚ) from rfl,
    hz, hn]

/-- Witness for C2 at a concrete batch with one ignored anchor. -/
theorem cls_loss_mean_over_valid_witness :
    cls_loss (fun p l => p.1 + p.2 + (l : ℚ)) [0, -1, 1] [(1, 2), (3, 4), (5, 6)]
      = ((validPairs [0, -1, 1] [(1, 2), (3, 4), (5, 6)]).map
          (fun p => p.1.1 + p.1.2 + (p.2 : ℚ))).sum
          / ((validPairs [0, -1, 1] [(1, 2), (3, 4), (5, 6)]).length : ℚ)
    ∧ (validPairs [0, -1, 1] [(1, 2), (3, 4), (5, 6)]).length
      = (([0, -1, 1] : List ℤ).filter (fun l => l ≠ -1)).length :=
  cls_loss_mean_over_valid (fun p l => p.1 + p.2 + (l : ℚ)) [0, -1, 1]
    [(1, 2), (3, 4), (5, 6)] rfl (by decide)

/-- C3: at the switch point |d| = 1 of the smoothed-L1 transform, the
quadratic branch `0.5*d^2` and the linear branch `|d| - 0.5` both evaluate
to 0.5 (at d = 1 and at d = -1), and at d = 1 both branches have derivative
1, so the transform is C¹-continuous where the mask switches. -/
theorem smooth_l1_branch_continuity :
    option1R 1 = 1/2 ∧ option2R 1 = 1/2 ∧
    option1R (-1) = 1/2 ∧ option2R (-1) = 1/2 ∧
    HasDerivAt option1R 1 1 ∧ HasDerivAt option2R 1 1 := by
  refine ⟨by norm_num [option1R], by norm_num [option2R],
    by norm_num [option1R], by norm_num [option2R], ?_, ?_⟩
  · have hsq : HasDerivAt (fun d : ℝ => d * d) 2 1 := by
      have h2 := (hasDerivAt_id (1 : ℝ)).mul (hasDerivAt_id 1)
      norm_num at h2
      exact h2
    have h := hsq.mul_const (1/2 : ℝ)
    show HasDerivAt (fun d : ℝ => d * d * (1/2)) 1 1
    convert h using 1
    norm_num
  · have hlin : HasDerivAt (fun d : ℝ => d - 1/2) 1 1 :=
      (hasDerivAt_id (1 : ℝ)).sub_const (1/2)
    have heq : (fun d : ℝ => |d| - 1/2) =ᶠ[nhds (1 : ℝ)] fun d => d - 1/2 := by
      filter_upwards [eventually_gt_nhds (show (0 : ℝ) < 1 by norm_num)] with x hx
      rw [abs_of_pos hx]
    show HasDerivAt (fun d : ℝ => |d| - 1/2) 1 1
    exact hlin.congr_of_eventuallyEq heq

theorem foldl_max_mem : ∀ (l : List ℚ) (a : ℚ), l.foldl max a = a ∨ l.foldl max a ∈ l := by
  intro l
  induction l with
  | nil => intro a; left; rfl
  | cons x xs ih =>
      intro a
      rcases ih (max a x) with h | h
      · rcases max_choice a x with hm | hm
        · left; simpa [List.foldl_cons, hm] using h
        · right; simp only [List.foldl_cons]
          rw [h, hm]
          exact List.mem_cons_self x xs
      · right
        simp only [List.foldl_cons]
        exact List.mem_cons_of_mem x h

theorem maxIoU_mem (anchors : List Box) (gt : Box) (h : anchors ≠ []) :
    maxIoU anchors gt ∈ anchors.map (fun a => iou a gt) := by
  match anchors with
  | [] => exact absurd rfl h
  | a :: as =>
      have hdef : maxIoU (a :: as) gt
          = (as.map (fun x => iou x gt)).foldl max (iou a gt) := rfl
      rw [hdef]
      rcases foldl_max_mem (as.map (fun x => iou x gt)) (iou a gt) with h1 | h1
      · rw [h1]; exact List.mem_cons_self _ _
      · exact List.mem_cons_of_mem _ h1

theorem getD_map_of_lt {α β : Type} (f : α → β) (dα : α) (dβ : β) :
    ∀ (l : List α) (i : ℕ), i < l.length → (l.map f).getD i dβ = f (l.getD i dα) := by
  intro l
  induction l with
  | nil => intro i hi; simp at hi
  | cons x xs ih =>
      intro i hi
      cases i with
      | zero => rfl
      | succ j =>
          simp only [List.map_cons, List.getD_cons_succ]
          exact ih j (by simpa using hi)

/-- C9: for a non-degenerate ground truth and a nonempty anchor set, the
matcher's labeling marks as foreground (1) every anchor whose IoU with the
ground truth equals the maximum IoU over all anchors — also when that IoU is
below the positive threshold, and for every anchor tied at the maximum — so
at least one anchor is labeled foreground. -/
theorem max_iou_labeled_foreground (posTh negTh : ℚ) (anchors : List Box) (gt : Box)
    (hne : anchors ≠ []) (_hgt : 0 < gt.area) :
    (∀ i, i < anchors.length →
        iou (anchors.getD i default) gt = maxIoU anchors gt →
        (assignLabels posTh negTh anchors gt).getD i 0 = 1)
    ∧ ∃ i, i < anchors.length
        ∧ (assignLabels posTh negTh anchors gt).getD i 0 = 1 := by
  have hlab : ∀ i, i < anchors.length →
      (assignLabels posTh negTh anchors gt).getD i 0
        = (if iou (anchors.getD i default) gt > posTh
              ∨ iou (anchors.getD i default) gt = maxIoU anchors gt then (1 : ℤ)
           else if iou (anchors.getD i default) gt < negTh then 0 else -1) := by
    intro i hi
    unfold assignLabels
    exact getD_map_of_lt _ default 0 anchors i hi
  constructor
  · intro i hi hmax
    rw [hlab i hi, if_pos (Or.inr hmax)]
  · have hmem := maxIoU_mem anchors gt hne
    rw [List.mem_iff_getElem] at hmem
    obtain ⟨i, hi, hget⟩ := hmem
    have hlen : i < anchors.length := by simpa using hi
    refine ⟨i, hlen, ?_⟩
    rw [hlab i hlen, if_pos (Or.inr ?_)]
    rw [← hget, List.getElem_map, List.getD_eq_getElem anchors default hlen]

/-- Witness for C9: two anchors, the ground truth coinciding with the first. -/
theorem max_iou_labeled_foreground_witness :
    (∀ i, i < ([⟨0, 0, 2, 2⟩, ⟨10, 10, 12, 12⟩] : List Box).length →
        iou (([⟨0, 0, 2, 2⟩, ⟨10, 10, 12, 12⟩] : List Box).getD i default)
            ⟨0, 0, 2, 2⟩
          = maxIoU [⟨0, 0, 2, 2⟩, ⟨10, 10, 12, 12⟩] ⟨0, 0, 2, 2⟩ →
        (assignLabels (7/10) (3/10) [⟨0, 0, 2, 2⟩, ⟨10, 10, 12, 12⟩]
            ⟨0, 0, 2, 2⟩).getD i 0 = 1)
    ∧ ∃ i, i < ([⟨0, 0, 2, 2⟩, ⟨10, 10, 12, 12⟩] : List Box).length
        ∧ (assignLabels (7/10) (3/10) [⟨0, 0, 2, 2⟩, ⟨10, 10, 12, 12⟩]
            ⟨0, 0, 2, 2⟩).getD i 0 = 1 :=
  max_iou_labeled_foreground (7/10) (3/10) [⟨0, 0, 2, 2⟩, ⟨10, 10, 12, 12⟩]
    ⟨0, 0, 2, 2⟩ (List.cons_ne_nil _ _) (by norm_num [Box.area])

/-- C7: `Loss_op.loss` is a pure, stateless, deterministic mapping: two
invocations on the same object with identical ground truth, score tensor and
box tensor return identical (cls_loss, reg_loss, label, target_box) tuples,
and the object state is read but never written back. -/
theorem loss_deterministic_stateless (ce : ℚ × ℚ → ℤ → ℚ) (op : Loss_op)
    (gt gt2 : List Box) (ps ps2 : List (ℚ × ℚ)) (pb pb2 : List (List ℚ))
    (h1 : gt = gt2) (h2 : ps = ps2) (h3 : pb = pb2) :
    Loss_op.loss ce op gt ps pb = Loss_op.loss ce op gt2 ps2 pb2
    ∧ (Loss_op.loss ce op gt ps pb).2 = op := by
  subst h1; subst h2; subst h3
  exact ⟨rfl, rfl⟩

/-- Witness for C7 on a concrete loss object and inputs. -/
theorem loss_deterministic_stateless_witness :
    Loss_op.loss (fun _ _ => 0) (Loss_op.init ⟨fun _ _ => ([], [], [], [], [])⟩)
        [] [] []
      = Loss_op.loss (fun _ _ => 0) (Loss_op.init ⟨fun _ _ => ([], [], [], [], [])⟩)
        [] [] []
    ∧ (Loss_op.loss (fun _ _ => 0) (Loss_op.init ⟨fun _ _ => ([], [], [], [], [])⟩)
        [] [] []).2 = Loss_op.init ⟨fun _ _ => ([], [], [], [], [])⟩ :=
  loss_deterministic_stateless (fun _ _ => 0)
    (Loss_op.init ⟨fun _ _ => ([], [], [], [], [])⟩) [] [] [] [] [] [] rfl rfl rfl

theorem runLosses_id (ce : ℚ × ℚ → ℤ → ℚ) :
    ∀ (calls : List (List Box × List (ℚ × ℚ) × List (List ℚ))) (op : Loss_op),
      runLosses ce op calls = op := by
  intro calls
  induction calls with
  | nil => intro op; rfl
  | cons c cs ih =>
      intro op
      have hstep : runLosses ce op (c :: cs) = runLosses ce op cs := rfl
      rw [hstep, ih op]

/-- C8: the anchor set is computed once at `Loss_op.__init__`
(as `Anchor(49,49).anchors`), and any sequence of `loss` invocations leaves
the object — in particular its stored `anchors` field — exactly as
construction set it. -/
theorem anchors_cached_unchanged (ce : ℚ × ℚ → ℤ → ℚ) (atf : Anchor_tf)
    (calls : List (List Box × List (ℚ × ℚ) × List (List ℚ))) :
    runLosses ce (Loss_op.init atf) calls = Loss_op.init atf
    ∧ (runLosses ce (Loss_op.init atf) calls).anchors = anchorBoxes 49 49 := by
  have h := runLosses_id ce calls (Loss_op.init atf)
  exact ⟨h, by rw [h]; rfl⟩

theorem dictGet_dictSet {T : Type} (d : List (String × T)) (k : String) (v : T) :
    dictGet (dictSet d k v) k = some v := by
  induction d with
  | nil => simp [dictSet, dictGet]
  | cons p ps ih =>
      by_cases h : p.1 = k
      · simp [dictSet, dictGet, h]
      · simp [dictSet, dictGet, h, ih]

/-- C10: the decorated layer-construction call preserves the chaining
invariant: with an empty terminal list it raises RuntimeError and leaves the
layer table (and whole state) unchanged; otherwise it records the output
under the resolved (supplied or auto-generated) name in the layer table,
makes that output the sole terminal, and a following decorated call consumes
exactly that output as its input. -/
theorem layer_chain_invariant {T : Type} (opName : String) (nm : Option String)
    (op : T ⊕ List T → T) (st : NetState T) :
    (st.terminals = [] →
      layer_decorated opName nm op st
        = (Except.error ("No input variables found for layer "
            ++ nm.getD (getUniqueName st opName) ++ "."), st))
    ∧ (∀ t, st.terminals = [t] →
        layer_decorated opName nm op st
          = (Except.ok (),
             { layers := dictSet st.layers (nm.getD (getUniqueName st opName))
                 (op (Sum.inl t)),
               terminals := [op (Sum.inl t)] })
        ∧ dictGet (layer_decorated opName nm op st).2.layers
            (nm.getD (getUniqueName st opName)) = some (op (Sum.inl t))
        ∧ (layer_decorated opName nm op st).2.terminals = [op (Sum.inl t)]
        ∧ ∀ (opName2 : String) (nm2 : Option String) (op2 : T ⊕ List T → T),
            (layer_decorated opName2 nm2 op2
                (layer_decorated opName nm op st).2).2.terminals
              = [op2 (Sum.inl (op (Sum.inl t)))])
    ∧ (∀ t1 t2 rest, st.terminals = t1 :: t2 :: rest →
        layer_decorated opName nm op st
          = (Except.ok (),
             { layers := dictSet st.layers (nm.getD (getUniqueName st opName))
                 (op (Sum.inr (t1 :: t2 :: rest))),
               terminals := [op (Sum.inr (t1 :: t2 :: rest))] })
        ∧ dictGet (layer_decorated opName nm op st).2.layers
            (nm.getD (getUniqueName st opName)) = some (op (Sum.inr (t1 :: t2 :: rest)))
        ∧ (layer_decorated opName nm op st).2.terminals
            = [op (Sum.inr (t1 :: t2 :: rest))]) := by
  obtain ⟨L, tm⟩ := st
  refine ⟨?_, ?_, ?_⟩
  · intro h
    replace h : tm = [] := h
    subst h
    rfl
  · intro t h
    replace h : tm = [t] := h
    subst h
    exact ⟨rfl, dictGet_dictSet L _ _, rfl, fun _ _ _ => rfl⟩
  · intro t1 t2 rest h
    replace h : tm = t1 :: t2 :: rest := h
    subst h
    exact ⟨rfl, dictGet_dictSet L _ _, rfl⟩

/-- Witness for C10: an empty-terminal call errors leaving the table
untouched, and a chained call records its output under the supplied name. -/
theorem layer_chain_invariant_witness :
    layer_decorated "conv" (some "c0") (fun _ => (7 : ℕ))
        ⟨[("a", 1)], []⟩
      = (Except.error "No input variables found for layer c0.",
         (⟨[("a", 1)], []⟩ : NetState ℕ))
    ∧ dictGet (layer_decorated "conv" (some "c1") (fun _ => (7 : ℕ))
        ⟨[("a", 1)], [5]⟩).2.layers "c1" = some 7 :=
  ⟨(layer_chain_invariant "conv" (some "c0") (fun _ => (7 : ℕ))
      ⟨[("a", 1)], []⟩).1 rfl,
   ((layer_chain_invariant "conv" (some "c1") (fun _ => (7 : ℕ))
      ⟨[("a", 1)], [5]⟩).2.1 5 rfl).2.1⟩

end SiamRPN
